import Mathlib

/-!
Verification development for the Trade repository
(`get-stock-data.py`, `find-trade-candidates.py`).

The embedding models:
* pandas float series as lists of `PF` values (a rational number, NaN, or
  a signed infinity, mirroring the IEEE special values pandas produces);
* the indicator functions `calculate_rsi`, `calculate_ma`,
  `calculate_macd`, `calculate_macd_signal`, `calculate_bb_upper`,
  `calculate_bb_middle`, `calculate_bb_lower`, `calculate_adx` and the
  driver `calculate_indicators` of `get-stock-data.py`;
* the incremental-mode controller of `main` in `get-stock-data.py`
  (history load, start/end date logic, fetch, concat + sort, recompute,
  delta filter, upsert) at daily timestamp granularity (timestamps are
  natural numbers counting days, so `.date()` of a timestamp is itself);
* the per-row insert loop with final commit of `insert_data`, with the
  MySQL transaction semantics (no autocommit; closing an uncommitted
  connection rolls the transaction back);
* the screening query of `find_trading_candidates` in
  `find-trade-candidates.py` as a filter over rows.

Square roots of rationals are irrational in general; the embedding uses
the rational square-root approximation `Rat.sqrt` for the Bollinger
standard deviation.  No claim below depends on the numeric value of a
square root, only on determinism and on availability (NaN vs numeric).
-/

/-- A pandas float value: NaN, +inf, -inf, or a (rational) number. -/
inductive PF where
  | nan : PF
  | pinf : PF
  | ninf : PF
  | num : ℚ → PF
deriving DecidableEq, Repr

namespace PF

/-- Is the value an ordinary (finite) number? -/
def isNum : PF → Bool
  | num _ => true
  | _ => false

/-- The rational carried by a numeric value (0 otherwise). -/
def toQ : PF → ℚ
  | num q => q
  | _ => 0

/-- IEEE-style negation. -/
def pneg : PF → PF
  | nan => nan
  | pinf => ninf
  | ninf => pinf
  | num q => num (-q)

/-- IEEE-style addition (NaN propagates, inf + -inf = NaN). -/
def padd : PF → PF → PF
  | num a, num b => num (a + b)
  | nan, _ => nan
  | _, nan => nan
  | pinf, ninf => nan
  | ninf, pinf => nan
  | pinf, _ => pinf
  | _, pinf => pinf
  | ninf, _ => ninf
  | _, ninf => ninf

/-- IEEE-style subtraction. -/
def psub (a b : PF) : PF := padd a (pneg b)

/-- IEEE-style multiplication (0 * inf = NaN). -/
def pmul : PF → PF → PF
  | num a, num b => num (a * b)
  | nan, _ => nan
  | _, nan => nan
  | pinf, pinf => pinf
  | pinf, ninf => ninf
  | ninf, pinf => ninf
  | ninf, ninf => pinf
  | pinf, num b => if 0 < b then pinf else if b < 0 then ninf else nan
  | num a, pinf => if 0 < a then pinf else if a < 0 then ninf else nan
  | ninf, num b => if 0 < b then ninf else if b < 0 then pinf else nan
  | num a, ninf => if 0 < a then ninf else if a < 0 then pinf else nan

/-- IEEE-style division: x/0 is a signed infinity for x ≠ 0 and NaN for
0/0; a finite number divided by an infinity is 0; inf/inf is NaN. -/
def pdiv : PF → PF → PF
  | nan, _ => nan
  | _, nan => nan
  | num a, num b =>
      if b = 0 then (if 0 < a then pinf else if a < 0 then ninf else nan)
      else num (a / b)
  | num _, pinf => num 0
  | num _, ninf => num 0
  | pinf, num b => if b < 0 then ninf else pinf
  | ninf, num b => if b < 0 then pinf else ninf
  | pinf, pinf => nan
  | pinf, ninf => nan
  | ninf, pinf => nan
  | ninf, ninf => nan

/-- IEEE-style absolute value. -/
def pabs : PF → PF
  | nan => nan
  | pinf => pinf
  | ninf => pinf
  | num q => num |q|

/-- `up[up < 0] = 0` of `calculate_rsi`: negative entries are replaced by
0; NaN is unchanged (`NaN < 0` is false in pandas). -/
def setNegZero : PF → PF
  | num q => if q < 0 then num 0 else num q
  | ninf => num 0
  | v => v

/-- `down[down > 0] = 0` of `calculate_rsi`: positive entries are
replaced by 0; NaN is unchanged. -/
def setPosZero : PF → PF
  | num q => if 0 < q then num 0 else num q
  | pinf => num 0
  | v => v

/-- `.clip(lower=0)` of `calculate_adx`: same value semantics as
`setNegZero` (values below 0 become 0, NaN stays NaN). -/
def clipLower0 : PF → PF
  | num q => if q < 0 then num 0 else num q
  | ninf => num 0
  | v => v

/-- `.clip(upper=0)` of `calculate_adx`. -/
def clipUpper0 : PF → PF
  | num q => if 0 < q then num 0 else num q
  | pinf => num 0
  | v => v

/-- Row-wise max with pandas `skipna=True` semantics: NaN is skipped
(identity), infinities compare as expected. -/
def pmaxSkip : PF → PF → PF
  | nan, b => b
  | a, nan => a
  | pinf, _ => pinf
  | _, pinf => pinf
  | ninf, b => b
  | a, ninf => a
  | num a, num b => num (max a b)

end PF

open PF

/-! ### Series operations (pandas Series over `List PF`) -/

/-- Sum of the rationals in a series (used on all-numeric windows). -/
def sumQ (l : List PF) : ℚ := l.foldr (fun v acc => v.toQ + acc) 0

/-- Rolling-window mean value of one full window, with pandas
`min_periods = window` semantics: NaN anywhere in the window gives NaN. -/
def meanPF (l : List PF) : PF :=
  if l.all PF.isNum then PF.num (sumQ l / l.length) else PF.nan

/-- The window of indices `i+1-w .. i` of a series. -/
def windowL (w i : ℕ) (xs : List PF) : List PF :=
  (xs.take (i + 1)).drop (i + 1 - w)

/-- `Series.rolling(w).mean()`: NaN until a full window of `w`
observations is available. -/
def rollingMean (w : ℕ) (xs : List PF) : List PF :=
  (List.range xs.length).map fun i =>
    if i + 1 < w then PF.nan else meanPF (windowL w i xs)

/-- Sample standard deviation (ddof = 1) of one full window, using the
rational square-root approximation. -/
def stdPF (l : List PF) : PF :=
  if l.all PF.isNum then
    let m : ℚ := sumQ l / l.length
    PF.num (Rat.sqrt ((l.foldr (fun v acc => (v.toQ - m) ^ 2 + acc) 0) / ((l.length : ℚ) - 1)))
  else PF.nan

/-- `Series.rolling(w).std()`. -/
def rollingStd (w : ℕ) (xs : List PF) : List PF :=
  (List.range xs.length).map fun i =>
    if i + 1 < w then PF.nan else stdPF (windowL w i xs)

/-- `Series.shift(1)`: NaN at index 0, previous element afterwards. -/
def shift1 (xs : List PF) : List PF :=
  (List.range xs.length).map fun i =>
    if i = 0 then PF.nan else xs.getD (i - 1) PF.nan

/-- `Series.diff(1)`: elementwise `x_i - x_{i-1}` with NaN at index 0. -/
def diffP (xs : List PF) : List PF :=
  List.zipWith psub xs (shift1 xs)

/-- `Series.ewm(span, adjust=False).mean()`: recursive exponential
smoothing seeded from the first element, α = 2/(span+1). -/
def ewmaS (span : ℕ) (xs : List PF) : List PF :=
  let α : ℚ := 2 / (span + 1)
  match xs with
  | [] => []
  | x :: rest =>
      rest.scanl (fun acc v => padd (pmul (PF.num α) v) (pmul (PF.num (1 - α)) acc)) x

/-! ### Indicator functions (`get-stock-data.py` lines 403-460) -/

/-- `calculate_rsi(data, window)`. -/
def calculate_rsi (data : List PF) (window : ℕ) : List PF :=
  let delta := diffP data
  let up := delta.map setNegZero
  let down := delta.map setPosZero
  let roll_up := rollingMean window up
  let roll_down := (rollingMean window down).map pabs
  let RS := List.zipWith pdiv roll_up roll_down
  RS.map fun rs => psub (PF.num 100) (pdiv (PF.num 100) (padd (PF.num 1) rs))

/-- `calculate_ma(data, window)`. -/
def calculate_ma (data : List PF) (window : ℕ) : List PF :=
  rollingMean window data

/-- `calculate_macd(data, window)`: EMA(span=window) − EMA(span=26). -/
def calculate_macd (data : List PF) (window : ℕ) : List PF :=
  List.zipWith psub (ewmaS window data) (ewmaS 26 data)

/-- `calculate_macd_signal(data, window)`: EMA of the MACD series
(MACD computed with the fixed fast span 12 from the `indicators` table). -/
def calculate_macd_signal (data : List PF) (window : ℕ) : List PF :=
  ewmaS window (calculate_macd data 12)

/-- `calculate_bb_upper(data, window)`. -/
def calculate_bb_upper (data : List PF) (window : ℕ) : List PF :=
  List.zipWith (fun m s => padd m (pmul (PF.num 2) s))
    (calculate_ma data window) (rollingStd window data)

/-- `calculate_bb_middle(data, window)`. -/
def calculate_bb_middle (data : List PF) (window : ℕ) : List PF :=
  calculate_ma data window

/-- `calculate_bb_lower(data, window)`. -/
def calculate_bb_lower (data : List PF) (window : ℕ) : List PF :=
  List.zipWith (fun m s => psub m (pmul (PF.num 2) s))
    (calculate_ma data window) (rollingStd window data)

/-- `calculate_adx(high, low, close, window)`. -/
def calculate_adx (high low close : List PF) (window : ℕ) : List PF :=
  let tr1 := List.zipWith psub high low
  let prevClose := shift1 close
  let tr2 := (List.zipWith psub high prevClose).map pabs
  let tr3 := (List.zipWith psub low prevClose).map pabs
  let tr := List.zipWith pmaxSkip (List.zipWith pmaxSkip tr1 tr2) tr3
  let plus_dm := (diffP high).map clipLower0
  let minus_dm := ((diffP low).map clipUpper0).map pneg
  let tr_smooth := rollingMean window tr
  let plus_di := (List.zipWith pdiv (rollingMean window plus_dm) tr_smooth).map (pmul (PF.num 100))
  let minus_di := (List.zipWith pdiv (rollingMean window minus_dm) tr_smooth).map (pmul (PF.num 100))
  let dx := (List.zipWith pdiv ((List.zipWith psub plus_di minus_di).map pabs)
              (List.zipWith padd plus_di minus_di)).map (pmul (PF.num 100))
  rollingMean window dx

/-- `df.fillna(0)` applied to one value: only NaN becomes 0 (infinities
are untouched by `fillna`). -/
def fillna0 : PF → PF
  | PF.nan => PF.num 0
  | v => v

/-! ### Data model: bars and persisted rows

Timestamps are modelled at daily granularity as natural numbers (days
since the epoch `1980-01-01`, which is day 0), so the `.date()` of a
timestamp is the timestamp itself. -/

/-- A raw OHLCV bar as fetched from the provider
(columns of `download_daily_ticker_info`). -/
structure Bar where
  ts : ℕ
  open_ : ℚ
  high : ℚ
  low : ℚ
  close : ℚ
  volume : ℚ
deriving DecidableEq, Repr

/-- A persisted `stock_data` row for one symbol: retained OHLCV plus the
nine computed indicator columns. -/
structure Row where
  ts : ℕ
  open_ : ℚ
  high : ℚ
  low : ℚ
  close : ℚ
  volume : ℚ
  rsi : PF
  ma50 : PF
  ma200 : PF
  macd : PF
  macd_signal : PF
  bb_upper : PF
  bb_middle : PF
  bb_lower : PF
  adx : PF
deriving DecidableEq, Repr

/-- Placeholder bar for total indexing (never observed in range). -/
def dummyBar : Bar := ⟨0, 0, 0, 0, 0, 0⟩

/-- Placeholder row for total indexing (never observed in range). -/
def dummyRow : Row := ⟨0, 0, 0, 0, 0, 0, PF.nan, PF.nan, PF.nan, PF.nan,
  PF.nan, PF.nan, PF.nan, PF.nan, PF.nan⟩

/-- Re-expand a persisted row into the Bar columns
`['timestamp', 'close', 'open', 'high', 'low', 'volume']` selected at
line 619 of `get-stock-data.py`. -/
def rowToBar (r : Row) : Bar :=
  ⟨r.ts, r.open_, r.high, r.low, r.close, r.volume⟩

/-- `calculate_indicators(data)` (lines 384-400): computes the nine
indicator columns from the OHLC series and then applies `df.fillna(0)`
to the whole frame.  The OHLCV columns carry no NaN, so `fillna` only
affects the indicator columns. -/
def calculate_indicators (bars : List Bar) : List Row :=
  let closeS := bars.map fun b => PF.num b.close
  let highS := bars.map fun b => PF.num b.high
  let lowS := bars.map fun b => PF.num b.low
  let rsiS := calculate_rsi closeS 14
  let ma50S := calculate_ma closeS 50
  let ma200S := calculate_ma closeS 200
  let macdS := calculate_macd closeS 12
  let macdSigS := calculate_macd_signal closeS 26
  let bbUS := calculate_bb_upper closeS 20
  let bbMS := calculate_bb_middle closeS 20
  let bbLS := calculate_bb_lower closeS 20
  let adxS := calculate_adx highS lowS closeS 14
  (List.range bars.length).map fun i =>
    let b := bars.getD i dummyBar
    { ts := b.ts, open_ := b.open_, high := b.high, low := b.low,
      close := b.close, volume := b.volume,
      rsi := fillna0 (rsiS.getD i PF.nan),
      ma50 := fillna0 (ma50S.getD i PF.nan),
      ma200 := fillna0 (ma200S.getD i PF.nan),
      macd := fillna0 (macdS.getD i PF.nan),
      macd_signal := fillna0 (macdSigS.getD i PF.nan),
      bb_upper := fillna0 (bbUS.getD i PF.nan),
      bb_middle := fillna0 (bbMS.getD i PF.nan),
      bb_lower := fillna0 (bbLS.getD i PF.nan),
      adx := fillna0 (adxS.getD i PF.nan) }

/-! ### Sorting by timestamp (`sort_values(by='timestamp')`, line 625) -/

/-- Insert a bar into a timestamp-sorted list. -/
def insertTs (b : Bar) : List Bar → List Bar
  | [] => [b]
  | c :: cs => if b.ts ≤ c.ts then b :: c :: cs else c :: insertTs b cs

/-- Sort a bar list ascending by timestamp (insertion sort). -/
def sortByTs : List Bar → List Bar
  | [] => []
  | b :: bs => insertTs b (sortByTs bs)

/-- Lines 619 and 625 of `get-stock-data.py`: concatenate the
re-expanded historical bars with the newly fetched bars and sort
ascending by timestamp.  No de-duplication is performed. -/
def mergeSeries (hist newData : List Bar) : List Bar :=
  sortByTs (hist ++ newData)

/-! ### Persisted store for one symbol -/

/-- Maximum persisted timestamp (`historical_data['timestamp'].max()`),
0 on an empty store. -/
def maxTimestamp (store : List Row) : ℕ :=
  store.foldr (fun r m => max r.ts m) 0

/-- Maximum timestamp of a bar list. -/
def maxBarTs (bars : List Bar) : ℕ :=
  bars.foldr (fun b m => max b.ts m) 0

/-- One `INSERT ... ON DUPLICATE KEY UPDATE` keyed by `(symbol,
timestamp)`: an existing row with the same timestamp is overwritten,
otherwise the row is appended. -/
def upsertRow (store : List Row) (r : Row) : List Row :=
  if store.any fun x => x.ts = r.ts then
    store.map fun x => if x.ts = r.ts then r else x
  else store ++ [r]

/-- Upsert a list of rows in order. -/
def upsertAll (store : List Row) (rows : List Row) : List Row :=
  rows.foldl upsertRow store

/-- `download_daily_ticker_info(ticker, start, end)` against a fixed
upstream data set: the bars whose timestamp lies in `[s, e]`. -/
def fetchBars (upstream : List Bar) (s e : ℕ) : List Bar :=
  upstream.filter fun b => decide (s ≤ b.ts) && decide (b.ts ≤ e)

/-! ### The incremental-mode controller (`main`, lines 559-643) -/

/-- Outcome of processing one symbol in incremental mode: the resulting
store, the rows passed to `insert_data`, and the fetch range actually
requested from the provider (`none` when no fetch was performed). -/
structure StepResult where
  store' : List Row
  writtenRows : List Row
  fetched : Option (ℕ × ℕ)
deriving DecidableEq, Repr

/-- The per-ticker body of the incremental loop of `main`:
* lines 563-565: an empty history skips the symbol;
* lines 569-580: `start_date = max_timestamp + 1 day`;
* lines 587-589: if `start_date > end_date`, `start_date_str` is
  overridden to the end date (the fetch still happens);
* line 593: if the end date equals the max persisted date, skip;
* line 599: fetch `[start_date_str, end_date]`; empty result means
  nothing further happens;
* lines 619-629: concatenate re-expanded history with the new bars,
  sort ascending, recompute all indicators over the whole series;
* line 635: keep only rows with timestamp strictly greater than
  `max_timestamp`;
* lines 639-641: insert (upsert) them when non-empty. -/
def incrementalStep (store : List Row) (upstream : List Bar) (endDate : ℕ) :
    StepResult :=
  if store.isEmpty then ⟨store, [], none⟩
  else
    let maxTs := maxTimestamp store
    let startD := maxTs + 1
    let startStr := if startD > endDate then endDate else startD
    if endDate = maxTs then ⟨store, [], none⟩
    else
      let newData := fetchBars upstream startStr endDate
      if newData.isEmpty then ⟨store, [], some (startStr, endDate)⟩
      else
        let allData := mergeSeries (store.map rowToBar) newData
        let allInd := calculate_indicators allData
        let newRows := allInd.filter fun r => decide (maxTs < r.ts)
        if newRows.isEmpty then ⟨store, [], some (startStr, endDate)⟩
        else ⟨upsertAll store newRows, newRows, some (startStr, endDate)⟩

/-- Day 0 models the epoch default `1980-01-01` of full mode. -/
def epochDay : ℕ := 0

/-- The per-ticker body of the full-mode loop of `main` (lines 535-541):
fetch everything from the epoch, compute indicators, insert all rows. -/
def fullStep (store : List Row) (upstream : List Bar) (endDate : ℕ) :
    StepResult :=
  let data := fetchBars upstream epochDay endDate
  if data.isEmpty then ⟨store, [], some (epochDay, endDate)⟩
  else
    let rows := calculate_indicators data
    ⟨upsertAll store rows, rows, some (epochDay, endDate)⟩

/-! ### `insert_data` (lines 318-381) with transactional semantics

The MySQLdb connection has autocommit disabled (PEP 249 default); the
single `db.commit()` runs only after every row has been executed.  An
exception raised mid-loop is caught, the connection is closed in the
`finally` block without a commit, and the open transaction is rolled
back by the server.  `failAt = some k` injects a failure at the k-th
`cursor.execute` (`k = rows.length` never fires, modelling success). -/

/-- The execute loop: stages upserts row by row, stopping with
`ok = false` when the injected failure fires. -/
def execLoop : List Row → List Row → Option ℕ → List Row × ℕ × Bool
  | staged, [], _ => (staged, 0, true)
  | staged, _ :: _, some 0 => (staged, 0, false)
  | staged, r :: rs, some (k + 1) =>
      let res := execLoop (upsertRow staged r) rs (some k)
      (res.1, res.2.1 + 1, res.2.2)
  | staged, r :: rs, none =>
      let res := execLoop (upsertRow staged r) rs none
      (res.1, res.2.1 + 1, res.2.2)

/-- `insert_data(symbol, df)`: empty input returns immediately; a
completed loop commits the staged rows; a failure mid-loop leaves the
transaction uncommitted, so closing the connection discards it. -/
def insert_data (store : List Row) (rows : List Row) (failAt : Option ℕ) :
    List Row × ℕ :=
  if rows.isEmpty then (store, 0)
  else
    let res := execLoop store rows failAt
    if res.2.2 then (res.1, res.2.1) else (store, res.2.1)

/-! ### The screener (`find-trade-candidates.py`) -/

/-- A persisted row as selected by the screening query
(`SELECT symbol, timestamp, close, rsi, ma50, ma200, macd, macd_signal,
bb_upper, bb_middle, bb_lower, adx`).  Timestamps are rationals (days)
so that `NOW() - INTERVAL x DAY` subtracts exactly. -/
structure CandRow where
  ts : ℚ
  close : ℚ
  rsi : ℚ
  ma50 : ℚ
  ma200 : ℚ
  macd : ℚ
  macd_signal : ℚ
  bb_upper : ℚ
  bb_middle : ℚ
  bb_lower : ℚ
  adx : ℚ
deriving DecidableEq, Repr

/-- The threshold parameters of `find_trading_candidates`. -/
structure ScreenParams where
  minclose : ℚ
  maxclose : ℚ
  rsilimit : ℚ
  ma50ma200delta : ℚ
  adxminlimit : ℚ
  adxmaxlimit : ℚ
  lookbackdays : ℚ
deriving DecidableEq, Repr

/-- The WHERE clause of `find_trading_candidates` (lines 188-201 of
`find-trade-candidates.py`) as a filter over the scoped rows:
`close BETWEEN minclose AND maxclose AND rsi <= rsilimit AND
ma50 > ma200 AND ma50 - ma200 <= delta AND macd > macd_signal AND
close < bb_middle AND adx BETWEEN adxmin AND adxmax AND
timestamp >= NOW() - INTERVAL lookbackdays DAY`. -/
def find_trading_candidates (rows : List CandRow) (p : ScreenParams)
    (now : ℚ) : List CandRow :=
  rows.filter fun r =>
    decide (p.minclose ≤ r.close) && decide (r.close ≤ p.maxclose) &&
    decide (r.rsi ≤ p.rsilimit) &&
    decide (r.ma200 < r.ma50) &&
    decide (r.ma50 - r.ma200 ≤ p.ma50ma200delta) &&
    decide (r.macd_signal < r.macd) &&
    decide (r.close < r.bb_middle) &&
    decide (p.adxminlimit ≤ r.adx) && decide (r.adx ≤ p.adxmaxlimit) &&
    decide (now - p.lookbackdays ≤ r.ts)

/-- Modelled from the spec: the merge step as §4.2 item 6 of the spec
describes it — concatenate, sort ascending by timestamp, and
de-duplicate by timestamp with the newly fetched bar winning on a
conflict.  (The source at line 619 performs no de-duplication; this
definition exists only to be compared against `mergeSeries`.) -/
def specMergeDedup (hist newData : List Bar) : List Bar :=
  sortByTs (newData ++ hist.filter fun h => ¬ newData.any fun b => b.ts = h.ts)

/-! ### Concrete instances used as witnesses and counterexamples -/

/-- A three-bar strictly ascending history. -/
def wHistory : List Bar :=
  [⟨1, 1, 1, 1, 1, 1⟩, ⟨2, 2, 2, 2, 2, 2⟩, ⟨3, 3, 3, 3, 3, 3⟩]

/-- A one-row persisted store with timestamp 1. -/
def wStore : List Row :=
  [⟨1, 1, 1, 1, 1, 1, PF.num 0, PF.num 0, PF.num 0, PF.num 0, PF.num 0,
    PF.num 0, PF.num 0, PF.num 0, PF.num 0⟩]

/-- Upstream data holding one bar newer than `wStore`. -/
def wUpstream : List Bar := [⟨2, 2, 2, 2, 2, 2⟩]

/-- Upstream data holding one bar at day 3. -/
def wUpstreamEarly : List Bar := [⟨3, 1, 1, 1, 1, 1⟩]

/-- A one-row persisted store with timestamp 10 (ahead of the end date
used against it). -/
def wStoreAhead : List Row :=
  [⟨10, 1, 1, 1, 1, 1, PF.num 0, PF.num 0, PF.num 0, PF.num 0, PF.num 0,
    PF.num 0, PF.num 0, PF.num 0, PF.num 0⟩]

/-- Upstream data holding one bar at day 8. -/
def wUpstreamAhead : List Bar := [⟨8, 1, 1, 1, 1, 1⟩]

/-- A historical bar at day 1 with close 1. -/
def wHistDup : List Bar := [⟨1, 1, 1, 1, 1, 1⟩]

/-- A newly fetched bar at the same day 1 with close 2 (a same-day
revision). -/
def wNewDup : List Bar := [⟨1, 2, 2, 2, 2, 2⟩]

/-- A strictly ascending 220-element close series 1, 2, ..., 220. -/
def asc220 : List ℚ := (List.range 220).map fun i : ℕ => (i : ℚ) + 1

/-- Two ascending bars (enough to exercise the RSI warm-up fill). -/
def wBars2 : List Bar := [⟨1, 1, 1, 1, 1, 1⟩, ⟨2, 2, 2, 2, 2, 2⟩]

/-- The positive screener example row of the spec, taken at day 100:
close 10, rsi 25, ma50 5.2, ma200 5.0, macd 0.1, macd_signal 0.05,
bb_middle 10.5, adx 25. -/
def wPosRow : CandRow :=
  ⟨100, 10, 25, 26/5, 5, 1/10, 1/20, 0, 21/2, 0, 25⟩

/-- The same row with rsi changed to 35. -/
def wNegRow : CandRow :=
  ⟨100, 10, 35, 26/5, 5, 1/10, 1/20, 0, 21/2, 0, 25⟩

/-- The default thresholds of `find-trade-candidates.py`: min 2, max 22,
rsi 30, delta 0.3, adx 20-40, lookback 5 days. -/
def wParams : ScreenParams := ⟨2, 22, 30, 3/10, 20, 40, 5⟩

/-! ### Basic indexing and length lemmas -/

lemma getD_rangeMap {α : Type} (n : ℕ) (f : ℕ → α) (i : ℕ) (d : α)
    (h : i < n) : ((List.range n).map f).getD i d = f i := by
  rw [List.getD_eq_getElem _ _ (by simpa using h)]
  simp

lemma getD_map_pf (g : PF → PF) (xs : List PF) (i : ℕ) (h : i < xs.length) :
    (xs.map g).getD i PF.nan = g (xs.getD i PF.nan) := by
  rw [List.getD_eq_getElem _ _ (by simpa using h),
    List.getD_eq_getElem _ _ h]
  simp

lemma getD_zipWith_pf (f : PF → PF → PF) (as bs : List PF) (i : ℕ)
    (ha : i < as.length) (hb : i < bs.length) :
    (List.zipWith f as bs).getD i PF.nan
      = f (as.getD i PF.nan) (bs.getD i PF.nan) := by
  rw [List.getD_eq_getElem _ _ (by simp [List.length_zipWith]; omega),
    List.getD_eq_getElem _ _ ha, List.getD_eq_getElem _ _ hb]
  simp

lemma map_eq_rangeMap {α β : Type} (l : List α) (f : α → β) (d : α) :
    l.map f = (List.range l.length).map fun i => f (l.getD i d) := by
  induction l with
  | nil => simp
  | cons a t ih =>
      simp only [List.map_cons, List.length_cons, List.range_succ_eq_map,
        List.map_map, Function.comp, List.getD_cons_zero, List.getD_cons_succ]
      exact congrArg _ ih

@[simp] lemma length_rollingMean (w : ℕ) (xs : List PF) :
    (rollingMean w xs).length = xs.length := by simp [rollingMean]

@[simp] lemma length_rollingStd (w : ℕ) (xs : List PF) :
    (rollingStd w xs).length = xs.length := by simp [rollingStd]

@[simp] lemma length_shift1 (xs : List PF) :
    (shift1 xs).length = xs.length := by simp [shift1]

@[simp] lemma length_diffP (xs : List PF) :
    (diffP xs).length = xs.length := by simp [diffP]

@[simp] lemma length_ewmaS (span : ℕ) (xs : List PF) :
    (ewmaS span xs).length = xs.length := by
  cases xs <;> simp [ewmaS, List.length_scanl]

@[simp] lemma length_calculate_rsi (data : List PF) (w : ℕ) :
    (calculate_rsi data w).length = data.length := by
  simp [calculate_rsi]

@[simp] lemma length_calculate_ma (data : List PF) (w : ℕ) :
    (calculate_ma data w).length = data.length := by
  simp [calculate_ma]

@[simp] lemma length_calculate_macd (data : List PF) (w : ℕ) :
    (calculate_macd data w).length = data.length := by
  simp [calculate_macd]

@[simp] lemma length_calculate_macd_signal (data : List PF) (w : ℕ) :
    (calculate_macd_signal data w).length = data.length := by
  simp [calculate_macd_signal]

@[simp] lemma length_calculate_indicators (bars : List Bar) :
    (calculate_indicators bars).length = bars.length := by
  simp [calculate_indicators]

/-! ### Alignment of `calculate_indicators` output with its input -/

lemma calcInd_getD (bars : List Bar) (i : ℕ) (h : i < bars.length) :
    (calculate_indicators bars).getD i dummyRow =
      (let closeS := bars.map fun b => PF.num b.close
       let highS := bars.map fun b => PF.num b.high
       let lowS := bars.map fun b => PF.num b.low
       let b := bars.getD i dummyBar
       { ts := b.ts, open_ := b.open_, high := b.high, low := b.low,
         close := b.close, volume := b.volume,
         rsi := fillna0 ((calculate_rsi closeS 14).getD i PF.nan),
         ma50 := fillna0 ((calculate_ma closeS 50).getD i PF.nan),
         ma200 := fillna0 ((calculate_ma closeS 200).getD i PF.nan),
         macd := fillna0 ((calculate_macd closeS 12).getD i PF.nan),
         macd_signal := fillna0 ((calculate_macd_signal closeS 26).getD i PF.nan),
         bb_upper := fillna0 ((calculate_bb_upper closeS 20).getD i PF.nan),
         bb_middle := fillna0 ((calculate_bb_middle closeS 20).getD i PF.nan),
         bb_lower := fillna0 ((calculate_bb_lower closeS 20).getD i PF.nan),
         adx := fillna0 ((calculate_adx highS lowS closeS 14).getD i PF.nan) } : Row) := by
  unfold calculate_indicators
  rw [getD_rangeMap _ _ _ _ h]

lemma calcInd_map_ts (bars : List Bar) :
    (calculate_indicators bars).map Row.ts = bars.map Bar.ts := by
  unfold calculate_indicators
  rw [List.map_map, map_eq_rangeMap bars Bar.ts dummyBar]
  rfl

lemma calcInd_map_rowToBar (bars : List Bar) :
    (calculate_indicators bars).map rowToBar = bars := by
  unfold calculate_indicators
  rw [List.map_map]
  conv_rhs => rw [show bars = (List.range bars.length).map fun i => bars.getD i dummyBar from by
    simpa using map_eq_rangeMap bars id dummyBar]
  rfl

lemma ts_mem_of_mem_calcInd {bars : List Bar} {r : Row}
    (h : r ∈ calculate_indicators bars) : r.ts ∈ bars.map Bar.ts := by
  rw [← calcInd_map_ts]
  exact List.mem_map_of_mem Row.ts h

lemma exists_row_of_ts_mem {bars : List Bar} {t : ℕ}
    (h : t ∈ bars.map Bar.ts) :
    ∃ r ∈ calculate_indicators bars, r.ts = t := by
  rw [← calcInd_map_ts] at h
  rcases List.mem_map.1 h with ⟨r, hr, hrt⟩
  exact ⟨r, hr, hrt⟩

/-! ### Sorting lemmas -/

lemma insertTs_perm (b : Bar) (l : List Bar) :
    List.Perm (insertTs b l) (b :: l) := by
  induction l with
  | nil => simp [insertTs]
  | cons c cs ih =>
      by_cases h : b.ts ≤ c.ts
      · simp [insertTs, h]
      · simp only [insertTs, if_neg h]
        exact (ih.cons c).trans (List.Perm.swap b c cs)

lemma sortByTs_perm (l : List Bar) : List.Perm (sortByTs l) l := by
  induction l with
  | nil => simp [sortByTs]
  | cons b bs ih => exact (insertTs_perm b (sortByTs bs)).trans (ih.cons b)

lemma insertTs_chain (b : Bar) (l : List Bar)
    (h : List.Chain' (fun x y => x.ts ≤ y.ts) l) :
    List.Chain' (fun x y => x.ts ≤ y.ts) (insertTs b l) := by
  revert h
  induction l with
  | nil => intro h; simp [insertTs]
  | cons c cs ih =>
      intro h
      by_cases hb : b.ts ≤ c.ts
      · simp only [insertTs, if_pos hb]
        rw [List.chain'_cons]
        exact ⟨hb, h⟩
      · simp only [insertTs, if_neg hb]
        rw [List.chain'_cons']
        refine ⟨?_, ih h.tail⟩
        intro y hy
        cases cs with
        | nil =>
            simp [insertTs] at hy
            subst hy
            exact le_of_not_le hb
        | cons d ds =>
            by_cases hbd : b.ts ≤ d.ts
            · simp [insertTs, hbd] at hy
              subst hy
              exact le_of_not_le hb
            · simp [insertTs, hbd] at hy
              subst hy
              exact (List.chain'_cons.1 h).1

lemma sortByTs_chain (l : List Bar) :
    List.Chain' (fun x y => x.ts ≤ y.ts) (sortByTs l) := by
  induction l with
  | nil => simp [sortByTs]
  | cons b bs ih => exact insertTs_chain b (sortByTs bs) ih

lemma sortByTs_eq_self (l : List Bar)
    (h : List.Chain' (fun x y => x.ts ≤ y.ts) l) : sortByTs l = l := by
  induction l with
  | nil => rfl
  | cons b bs ih =>
      have hb : sortByTs bs = bs := ih h.tail
      simp only [sortByTs, hb]
      cases bs with
      | nil => rfl
      | cons c cs =>
          have hbc : b.ts ≤ c.ts := (List.chain'_cons.1 h).1
          simp [insertTs, hbc]

/-! ### Fold-max lemmas for `maxTimestamp` / `maxBarTs` -/

lemma foldrMax_le_of_mem {α : Type} (f : α → ℕ) {l : List α} {x : α}
    (hx : x ∈ l) : f x ≤ l.foldr (fun a m => max (f a) m) 0 := by
  induction l with
  | nil => cases hx
  | cons a t ih =>
      rcases List.mem_cons.1 hx with rfl | hxt
      · exact le_max_left _ _
      · exact (ih hxt).trans (le_max_right _ _)

lemma foldrMax_mem {α : Type} (f : α → ℕ) {l : List α} (h : l ≠ []) :
    ∃ x ∈ l, f x = l.foldr (fun a m => max (f a) m) 0 := by
  induction l with
  | nil => exact absurd rfl h
  | cons a t ih =>
      cases t with
      | nil => exact ⟨a, List.mem_singleton_self a, by simp⟩
      | cons b u =>
          rcases ih (by simp) with ⟨x, hx, hfx⟩
          rcases le_total ((b :: u).foldr (fun a m => max (f a) m) 0) (f a) with hle | hle
          · refine ⟨a, List.mem_cons_self _ _, ?_⟩
            rw [List.foldr_cons]
            exact (max_eq_left hle).symm
          · refine ⟨x, List.mem_cons_of_mem a hx, ?_⟩
            rw [List.foldr_cons, max_eq_right hle, hfx]

lemma foldrMax_le_bound {α : Type} (f : α → ℕ) {l : List α} {M : ℕ}
    (h : ∀ x ∈ l, f x ≤ M) : l.foldr (fun a m => max (f a) m) 0 ≤ M := by
  induction l with
  | nil => simp
  | cons a t ih =>
      simp only [List.foldr_cons, max_le_iff]
      exact ⟨h a (List.mem_cons_self _ _), ih fun x hx => h x (List.mem_cons_of_mem a hx)⟩

lemma ts_le_maxTimestamp {store : List Row} {r : Row} (h : r ∈ store) :
    r.ts ≤ maxTimestamp store := foldrMax_le_of_mem Row.ts h

lemma maxTimestamp_attained {store : List Row} (h : store ≠ []) :
    ∃ r ∈ store, r.ts = maxTimestamp store := foldrMax_mem Row.ts h

lemma ts_le_maxBarTs {bars : List Bar} {b : Bar} (h : b ∈ bars) :
    b.ts ≤ maxBarTs bars := foldrMax_le_of_mem Bar.ts h

lemma maxBarTs_attained {bars : List Bar} (h : bars ≠ []) :
    ∃ b ∈ bars, b.ts = maxBarTs bars := foldrMax_mem Bar.ts h

lemma maxTimestamp_append (s t : List Row) :
    maxTimestamp (s ++ t) = max (maxTimestamp s) (maxTimestamp t) := by
  unfold maxTimestamp
  induction s with
  | nil => simp
  | cons a u ih => simp [ih, max_assoc]

/-! ### Upsert lemmas -/

lemma upsertRow_notMem {store : List Row} {r : Row}
    (h : ∀ x ∈ store, x.ts ≠ r.ts) : upsertRow store r = store ++ [r] := by
  unfold upsertRow
  rw [if_neg]
  simp only [List.any_eq_true, not_exists, not_and]
  intro x hx
  simp [h x hx]

lemma upsertAll_append {store rows : List Row}
    (hdisj : ∀ r ∈ rows, ∀ x ∈ store, x.ts ≠ r.ts)
    (hpw : rows.Pairwise fun a b => a.ts ≠ b.ts) :
    upsertAll store rows = store ++ rows := by
  induction rows generalizing store with
  | nil => simp [upsertAll]
  | cons r rs ih =>
      have h1 : upsertRow store r = store ++ [r] :=
        upsertRow_notMem fun x hx => hdisj r (List.mem_cons_self _ _) x hx
      have h2 : upsertAll (store ++ [r]) rs = (store ++ [r]) ++ rs := by
        refine ih ?_ (List.Pairwise.sublist (List.sublist_cons_self r rs) hpw)
        intro q hq x hx
        rcases List.mem_append.1 hx with hxs | hxr
        · exact hdisj q (List.mem_cons_of_mem r hq) x hxs
        · rcases List.mem_singleton.1 hxr with rfl
          exact (List.pairwise_cons.1 hpw).1 q hq
      calc upsertAll store (r :: rs) = upsertAll (upsertRow store r) rs := rfl
        _ = (store ++ [r]) ++ rs := by rw [h1]; exact h2
        _ = store ++ r :: rs := by simp

/-! ### Window lemmas -/

lemma mem_windowL_sub {w i : ℕ} {xs : List PF} {v : PF}
    (h : v ∈ windowL w i xs) : v ∈ xs :=
  List.mem_of_mem_take (List.mem_of_mem_drop h)

lemma mem_windowL_index {w i : ℕ} {xs : List PF} {v : PF}
    (h : v ∈ windowL w i xs) :
    ∃ j, i + 1 - w ≤ j ∧ j < i + 1 ∧ j < xs.length ∧ xs.getD j PF.nan = v := by
  unfold windowL at h
  rcases List.getElem_of_mem h with ⟨j, hj, hv⟩
  rw [List.getElem_drop, List.getElem_take] at hv
  have hjlen : j < (xs.take (i + 1)).length - (i + 1 - w) := by
    simpa [List.length_drop] using hj
  have hjt : i + 1 - w + j < (xs.take (i + 1)).length := by omega
  have hlen : (xs.take (i + 1)).length = min (i + 1) xs.length := List.length_take _ _
  refine ⟨i + 1 - w + j, by omega, by omega, by omega, ?_⟩
  rw [List.getD_eq_getElem _ _ (by omega)]
  exact hv

lemma getD_mem_windowL (xs : List PF) {w i j : ℕ}
    (h1 : i + 1 - w ≤ j) (h2 : j ≤ i) (h3 : j < xs.length) :
    xs.getD j PF.nan ∈ windowL w i xs := by
  unfold windowL
  have hlen : (xs.take (i + 1)).length = min (i + 1) xs.length := List.length_take _ _
  have hjd : j - (i + 1 - w) < ((xs.take (i + 1)).drop (i + 1 - w)).length := by
    rw [List.length_drop]
    omega
  have hidx : i + 1 - w + (j - (i + 1 - w)) = j := by omega
  have hgd : ((xs.take (i + 1)).drop (i + 1 - w))[j - (i + 1 - w)] = xs.getD j PF.nan := by
    rw [List.getElem_drop, List.getElem_take, List.getD_eq_getElem _ _ h3]
    simp only [hidx]
  rw [← hgd]
  exact List.getElem_mem _

lemma length_windowL (w i : ℕ) (xs : List PF) (hw : w ≤ i + 1)
    (hn : i < xs.length) : (windowL w i xs).length = w := by
  unfold windowL
  rw [List.length_drop, List.length_take]
  omega

/-! ### `meanPF` lemmas -/

lemma meanPF_isNum (l : List PF) : (meanPF l).isNum = l.all PF.isNum := by
  unfold meanPF
  by_cases h : l.all PF.isNum <;> simp [h, PF.isNum]

lemma meanPF_of_nan_mem {l : List PF} (h : PF.nan ∈ l) : meanPF l = PF.nan := by
  unfold meanPF
  rw [if_neg]
  simp only [List.all_eq_true, not_forall]
  exact ⟨PF.nan, h, by simp [PF.isNum]⟩

lemma sumQ_pos {l : List PF} (h : ∀ v ∈ l, ∃ q : ℚ, v = PF.num q ∧ 0 < q)
    (hne : l ≠ []) : (l.all PF.isNum = true) ∧ 0 < sumQ l := by
  induction l with
  | nil => exact absurd rfl hne
  | cons a t ih =>
      rcases h a (List.mem_cons_self _ _) with ⟨q, rfl, hq⟩
      cases t with
      | nil => simpa [sumQ, PF.isNum, PF.toQ] using hq
      | cons b u =>
          rcases ih (fun v hv => h v (List.mem_cons_of_mem _ hv)) (by simp) with ⟨h1, h2⟩
          refine ⟨by simpa [PF.isNum] using h1, ?_⟩
          have : sumQ (PF.num q :: b :: u) = q + sumQ (b :: u) := by
            simp [sumQ, PF.toQ]
          rw [this]
          positivity

lemma sumQ_zero {l : List PF} (h : ∀ v ∈ l, v = PF.num 0) :
    (l.all PF.isNum = true) ∧ sumQ l = 0 := by
  induction l with
  | nil => simp [sumQ]
  | cons a t ih =>
      rcases h a (List.mem_cons_self _ _) with rfl
      rcases ih (fun v hv => h v (List.mem_cons_of_mem _ hv)) with ⟨h1, h2⟩
      constructor
      · simpa [PF.isNum] using h1
      · simp [sumQ, PF.toQ] at h2 ⊢
        exact h2

lemma meanPF_pos {l : List PF} (h : ∀ v ∈ l, ∃ q : ℚ, v = PF.num q ∧ 0 < q)
    (hne : l ≠ []) : ∃ p : ℚ, meanPF l = PF.num p ∧ 0 < p := by
  rcases sumQ_pos h hne with ⟨h1, h2⟩
  refine ⟨sumQ l / l.length, by simp [meanPF, h1], ?_⟩
  have hl : 0 < (l.length : ℚ) := by
    have := List.length_pos.2 hne
    exact_mod_cast this
  positivity

lemma meanPF_zero {l : List PF} (h : ∀ v ∈ l, v = PF.num 0) :
    meanPF l = PF.num (0 / l.length) := by
  rcases sumQ_zero h with ⟨h1, h2⟩
  simp [meanPF, h1, h2]

/-! ### Pointwise characterizations of the RSI pipeline -/

@[simp] lemma pdiv_nan_left (x : PF) : pdiv PF.nan x = PF.nan := by
  cases x <;> rfl

@[simp] lemma pdiv_nan_right (x : PF) : pdiv x PF.nan = PF.nan := by
  cases x <;> rfl

@[simp] lemma padd_nan_left (x : PF) : padd PF.nan x = PF.nan := by
  cases x <;> rfl

@[simp] lemma padd_nan_right (x : PF) : padd x PF.nan = PF.nan := by
  cases x <;> rfl

@[simp] lemma psub_nan_right (x : PF) : psub x PF.nan = PF.nan := by
  cases x <;> rfl

lemma psub_num (a b : ℚ) : psub (PF.num a) (PF.num b) = PF.num (a - b) := by
  simp [psub, pneg, padd, sub_eq_add_neg]

lemma rollingMean_getD (w : ℕ) (xs : List PF) (i : ℕ) (h : i < xs.length) :
    (rollingMean w xs).getD i PF.nan =
      if i + 1 < w then PF.nan else meanPF (windowL w i xs) := by
  unfold rollingMean
  rw [getD_rangeMap _ _ _ _ h]

lemma shift1_getD (xs : List PF) (i : ℕ) (h : i < xs.length) :
    (shift1 xs).getD i PF.nan =
      if i = 0 then PF.nan else xs.getD (i - 1) PF.nan := by
  unfold shift1
  rw [getD_rangeMap _ _ _ _ h]

lemma diffP_getD (xs : List PF) (i : ℕ) (h : i < xs.length) :
    (diffP xs).getD i PF.nan =
      if i = 0 then PF.nan
      else psub (xs.getD i PF.nan) (xs.getD (i - 1) PF.nan) := by
  unfold diffP
  rw [getD_zipWith_pf _ _ _ _ h (by simpa using h), shift1_getD _ _ h]
  by_cases h0 : i = 0 <;> simp [h0]

lemma getD_map_num (closes : List ℚ) (j : ℕ) (h : j < closes.length) :
    (closes.map PF.num).getD j PF.nan = PF.num (closes.getD j 0) := by
  rw [List.getD_eq_getElem _ _ (by simpa using h), List.getD_eq_getElem _ _ h]
  simp

lemma calculate_rsi_getD (data : List PF) (i : ℕ) (h : i < data.length) :
    (calculate_rsi data 14).getD i PF.nan =
      psub (PF.num 100) (pdiv (PF.num 100) (padd (PF.num 1)
        (pdiv ((rollingMean 14 ((diffP data).map setNegZero)).getD i PF.nan)
          (pabs ((rollingMean 14 ((diffP data).map setPosZero)).getD i PF.nan))))) := by
  unfold calculate_rsi
  rw [getD_map_pf _ _ _ (by simpa using h),
    getD_zipWith_pf _ _ _ _ (by simpa using h) (by simpa using h),
    getD_map_pf _ _ _ (by simpa using h)]

/-- The RSI column is NaN at every index below 14 for any input series:
the delta at index 0 is NaN, so every rolling window that starts at or
before index 0 is NaN (used by warm-up and missing-value claims). -/
lemma rsi_nan_lt14 (data : List PF) (i : ℕ) (hi : i < data.length)
    (h14 : i < 14) : (calculate_rsi data 14).getD i PF.nan = PF.nan := by
  rw [calculate_rsi_getD data i hi]
  have hup : (rollingMean 14 ((diffP data).map setNegZero)).getD i PF.nan
      = PF.nan := by
    rw [rollingMean_getD _ _ _ (by simpa using hi)]
    by_cases hc : i + 1 < 14
    · simp [hc]
    · rw [if_neg hc]
      apply meanPF_of_nan_mem
      have h0 : ((diffP data).map setNegZero).getD 0 PF.nan = PF.nan := by
        rw [getD_map_pf _ _ _ (by simp; omega), diffP_getD _ _ (by omega)]
        simp [setNegZero]
      have hmem := getD_mem_windowL ((diffP data).map setNegZero)
        (w := 14) (i := i) (j := 0) (by omega) (by omega) (by simp; omega)
      rw [h0] at hmem
      exact hmem
  rw [hup]
  simp

/-- For a strictly ascending close series, every loss window from index
14 onwards is all zeros and every gain window is strictly positive, so
RS is +inf and RSI is exactly 100 (hence numeric). -/
lemma rsi_num_of_ascending (closes : List ℚ)
    (hasc : List.Chain' (· < ·) closes) (i : ℕ) (hi : i < closes.length)
    (h14 : 14 ≤ i) :
    (calculate_rsi (closes.map PF.num) 14).getD i PF.nan = PF.num 100 := by
  set data := closes.map PF.num with hdata
  have hlen : data.length = closes.length := by simp [hdata]
  have hstep : ∀ j, 1 ≤ j → j < closes.length →
      ∃ d : ℚ, (diffP data).getD j PF.nan = PF.num d ∧ 0 < d := by
    intro j h1 h2
    rw [diffP_getD _ _ (by omega), if_neg (by omega),
      getD_map_num _ _ h2, getD_map_num _ _ (by omega), psub_num]
    refine ⟨_, rfl, ?_⟩
    have := List.chain'_iff_get.1 hasc (j - 1) (by omega)
    rw [List.getD_eq_getElem _ _ h2,
      List.getD_eq_getElem _ _ (by omega : j - 1 < closes.length)]
    have hj1 : j - 1 + 1 = j := by omega
    simp only [List.get_eq_getElem, hj1] at this
    linarith [this]
  have hup : ∃ p : ℚ,
      (rollingMean 14 ((diffP data).map setNegZero)).getD i PF.nan = PF.num p
        ∧ 0 < p := by
    rw [rollingMean_getD _ _ _ (by simp [hlen]; omega), if_neg (by omega)]
    apply meanPF_pos
    · intro v hv
      rcases mem_windowL_index hv with ⟨j, hj1, hj2, hj3, hj4⟩
      have hj3' : j < closes.length := by simpa [hlen] using hj3
      rcases hstep j (by omega) hj3' with ⟨d, hd, hdpos⟩
      rw [getD_map_pf _ _ _ (by simp [hlen]; omega)] at hj4
      rw [hd] at hj4
      exact ⟨d, by rw [← hj4]; simp [setNegZero, not_lt.2 (le_of_lt hdpos)], hdpos⟩
    · apply List.ne_nil_of_mem
      exact getD_mem_windowL ((diffP data).map setNegZero)
        (w := 14) (i := i) (j := i) (by omega) le_rfl
        (by simp [hlen]; omega)
  have hdown : (rollingMean 14 ((diffP data).map setPosZero)).getD i PF.nan
      = PF.num 0 := by
    rw [rollingMean_getD _ _ _ (by simp [hlen]; omega), if_neg (by omega)]
    have hz : ∀ v ∈ windowL 14 i ((diffP data).map setPosZero), v = PF.num 0 := by
      intro v hv
      rcases mem_windowL_index hv with ⟨j, hj1, hj2, hj3, hj4⟩
      have hj3' : j < closes.length := by simpa [hlen] using hj3
      rcases hstep j (by omega) hj3' with ⟨d, hd, hdpos⟩
      rw [getD_map_pf _ _ _ (by simp [hlen]; omega), hd] at hj4
      rw [← hj4]
      simp [setPosZero, hdpos]
    rw [meanPF_zero hz]
    simp
  rcases hup with ⟨p, hp, hppos⟩
  rw [calculate_rsi_getD _ _ (by simp [hlen]; omega), hp, hdown]
  have h1 : pdiv (PF.num p) (pabs (PF.num 0)) = PF.pinf := by
    simp [pabs, pdiv, hppos]
  rw [h1]
  have h2 : padd (PF.num 1) PF.pinf = PF.pinf := rfl
  have h3 : pdiv (PF.num 100) PF.pinf = PF.num 0 := rfl
  rw [h2, h3, psub_num]
  norm_num

/-- Availability of a simple moving average over a NaN-free series:
numeric exactly from index `w - 1` onwards. -/
lemma ma_isNum_iff (closes : List ℚ) (w i : ℕ) (hi : i < closes.length) :
    (((calculate_ma (closes.map PF.num) w).getD i PF.nan).isNum = true)
      ↔ ¬ (i + 1 < w) := by
  unfold calculate_ma
  rw [rollingMean_getD _ _ _ (by simpa using hi)]
  by_cases hc : i + 1 < w
  · simp [hc, PF.isNum]
  · rw [if_neg hc, meanPF_isNum]
    have hall : ∀ v ∈ windowL w i (closes.map PF.num), v.isNum = true := by
      intro v hv
      rcases List.mem_map.1 (mem_windowL_sub hv) with ⟨q, _, rfl⟩
      rfl
    exact iff_of_true (List.all_eq_true.2 hall) hc

/-! ### Controller-level helper lemmas -/

lemma mem_fetchBars {upstream : List Bar} {s e : ℕ} {b : Bar} :
    b ∈ fetchBars upstream s e ↔ b ∈ upstream ∧ s ≤ b.ts ∧ b.ts ≤ e := by
  simp [fetchBars, List.mem_filter, and_assoc]

lemma fetchBars_sublist (upstream : List Bar) (s e : ℕ) :
    (fetchBars upstream s e).Sublist upstream := List.filter_sublist _

/-- If every bar fed to the Indicator Engine has timestamp at most `m`,
the strict delta filter keeps nothing. -/
lemma newRows_nil_of_le (bars : List Bar) (m : ℕ)
    (h : ∀ b ∈ bars, b.ts ≤ m) :
    (calculate_indicators bars).filter (fun r => decide (m < r.ts)) = [] := by
  rw [List.filter_eq_nil_iff]
  intro r hr
  rcases List.mem_map.1 (ts_mem_of_mem_calcInd hr) with ⟨b, hb, hbt⟩
  have := h b hb
  simp only [decide_eq_true_eq]
  omega

/-- Every bar of the merged series is a historical bar or a new bar. -/
lemma mem_mergeSeries {hist newData : List Bar} {b : Bar} :
    b ∈ mergeSeries hist newData ↔ b ∈ hist ∨ b ∈ newData := by
  unfold mergeSeries
  rw [(sortByTs_perm _).mem_iff, List.mem_append]

/-! ### Regime lemmas for `incrementalStep` -/

lemma incrementalStep_nil (upstream : List Bar) (endDate : ℕ) :
    incrementalStep [] upstream endDate = ⟨[], [], none⟩ := rfl

lemma incrementalStep_uptodate {store : List Row} (upstream : List Bar)
    {endDate : ℕ} (h : store ≠ []) (he : endDate = maxTimestamp store) :
    incrementalStep store upstream endDate = ⟨store, [], none⟩ := by
  have hemp : ¬ (store.isEmpty = true) := by
    simp only [List.isEmpty_iff]
    exact h
  simp only [incrementalStep]
  rw [if_neg hemp, if_pos he]

lemma incrementalStep_behind {store : List Row} (upstream : List Bar)
    {endDate : ℕ} (h : store ≠ []) (hgt : endDate < maxTimestamp store) :
    incrementalStep store upstream endDate
      = ⟨store, [], some (endDate, endDate)⟩ := by
  have hemp : ¬ (store.isEmpty = true) := by
    simp only [List.isEmpty_iff]
    exact h
  have hne : ¬ (endDate = maxTimestamp store) := by omega
  have hov : (if maxTimestamp store + 1 > endDate
      then endDate else maxTimestamp store + 1) = endDate := if_pos (by omega)
  simp only [incrementalStep, hov]
  rw [if_neg hemp, if_neg hne]
  by_cases hN : (fetchBars upstream endDate endDate).isEmpty
  · rw [if_pos hN]
  · rw [if_neg hN]
    have hall : ∀ b ∈ mergeSeries (store.map rowToBar)
        (fetchBars upstream endDate endDate), b.ts ≤ maxTimestamp store := by
      intro b hb
      rcases mem_mergeSeries.1 hb with hbh | hbn
      · rcases List.mem_map.1 hbh with ⟨x, hx, rfl⟩
        exact ts_le_maxTimestamp hx
      · rcases mem_fetchBars.1 hbn with ⟨_, _, hb2⟩
        omega
    rw [if_pos (by rw [newRows_nil_of_le _ _ hall]; rfl)]

lemma incrementalStep_nofetch {store : List Row} {upstream : List Bar}
    {endDate : ℕ} (h : store ≠ []) (hlt : maxTimestamp store < endDate)
    (hN : fetchBars upstream (maxTimestamp store + 1) endDate = []) :
    incrementalStep store upstream endDate
      = ⟨store, [], some (maxTimestamp store + 1, endDate)⟩ := by
  have hemp : ¬ (store.isEmpty = true) := by
    simp only [List.isEmpty_iff]
    exact h
  have hne : ¬ (endDate = maxTimestamp store) := by omega
  have hov : (if maxTimestamp store + 1 > endDate
      then endDate else maxTimestamp store + 1) = maxTimestamp store + 1 :=
    if_neg (by omega)
  simp only [incrementalStep, hov]
  rw [if_neg hemp, if_neg hne, if_pos (by rw [hN]; rfl)]

/-- Pairwise-distinct timestamps survive the merge and the engine. -/
lemma newRows_pairwise {store : List Row} {upstream : List Bar}
    {endDate : ℕ} (hlt : maxTimestamp store < endDate)
    (hs : store.Pairwise fun a b => a.ts ≠ b.ts)
    (hu : upstream.Pairwise fun a b => a.ts ≠ b.ts) :
    ((calculate_indicators (mergeSeries (store.map rowToBar)
        (fetchBars upstream (maxTimestamp store + 1) endDate))).filter
      fun r => decide (maxTimestamp store < r.ts)).Pairwise
        fun a b => a.ts ≠ b.ts := by
  set N := fetchBars upstream (maxTimestamp store + 1) endDate with hNdef
  have hhist : (store.map rowToBar).Pairwise fun a b => a.ts ≠ b.ts := by
    rw [List.pairwise_map]
    exact hs
  have hNpw : N.Pairwise fun a b => a.ts ≠ b.ts :=
    hu.sublist (fetchBars_sublist upstream _ _)
  have happ : ((store.map rowToBar) ++ N).Pairwise fun a b => a.ts ≠ b.ts := by
    rw [List.pairwise_append]
    refine ⟨hhist, hNpw, ?_⟩
    intro a ha b hb
    rcases List.mem_map.1 ha with ⟨x, hx, rfl⟩
    rcases mem_fetchBars.1 hb with ⟨_, hb1, _⟩
    have := ts_le_maxTimestamp hx
    simp only [rowToBar]
    omega
  have hmerge : (mergeSeries (store.map rowToBar) N).Pairwise
      fun a b => a.ts ≠ b.ts := by
    unfold mergeSeries
    exact ((sortByTs_perm _).pairwise_iff
      (fun hab => Ne.symm hab)).2 happ
  have hts : ((mergeSeries (store.map rowToBar) N).map Bar.ts).Pairwise
      (fun a b => a ≠ b) := List.pairwise_map.2 hmerge
  rw [← calcInd_map_ts] at hts
  have hall : (calculate_indicators (mergeSeries (store.map rowToBar) N)).Pairwise
      fun a b => a.ts ≠ b.ts := List.pairwise_map.1 hts
  exact hall.sublist (List.filter_sublist _)

lemma incrementalStep_normal {store : List Row} {upstream : List Bar}
    {endDate : ℕ} (h : store ≠ []) (hlt : maxTimestamp store < endDate)
    (hN : fetchBars upstream (maxTimestamp store + 1) endDate ≠ [])
    (hs : store.Pairwise fun a b => a.ts ≠ b.ts)
    (hu : upstream.Pairwise fun a b => a.ts ≠ b.ts) :
    ∃ newRows : List Row,
      incrementalStep store upstream endDate
        = ⟨store ++ newRows, newRows, some (maxTimestamp store + 1, endDate)⟩
      ∧ newRows ≠ []
      ∧ (∀ r ∈ newRows, maxTimestamp store < r.ts
          ∧ r.ts ≤ maxBarTs (fetchBars upstream (maxTimestamp store + 1) endDate))
      ∧ (∃ r ∈ newRows,
          r.ts = maxBarTs (fetchBars upstream (maxTimestamp store + 1) endDate)) := by
  set m := maxTimestamp store with hm
  set N := fetchBars upstream (m + 1) endDate with hNdef
  set allData := mergeSeries (store.map rowToBar) N with hallData
  set NR := (calculate_indicators allData).filter
    (fun r => decide (m < r.ts)) with hNR
  have hF2 : ∀ r ∈ NR, m < r.ts := by
    intro r hr
    have := (List.mem_filter.1 hr).2
    simpa using this
  have hF3 : ∀ r ∈ NR, r.ts ≤ maxBarTs N := by
    intro r hr
    have hrmem : r ∈ calculate_indicators allData := (List.mem_filter.1 hr).1
    rcases List.mem_map.1 (ts_mem_of_mem_calcInd hrmem) with ⟨b, hb, hbt⟩
    rcases mem_mergeSeries.1 hb with hbh | hbn
    · rcases List.mem_map.1 hbh with ⟨x, hx, rfl⟩
      have h1 := ts_le_maxTimestamp hx
      have h2 := hF2 r hr
      simp only [rowToBar] at hbt
      omega
    · rw [← hbt]
      exact ts_le_maxBarTs hbn
  have hF4 : ∃ r ∈ NR, r.ts = maxBarTs N := by
    rcases maxBarTs_attained hN with ⟨b0, hb0, hb0t⟩
    have hb0all : b0 ∈ allData := mem_mergeSeries.2 (Or.inr hb0)
    rcases exists_row_of_ts_mem (List.mem_map_of_mem Bar.ts hb0all) with ⟨r, hr, hrt⟩
    have hb0m : m < b0.ts := by
      rcases mem_fetchBars.1 hb0 with ⟨_, h1, _⟩
      omega
    refine ⟨r, List.mem_filter.2 ⟨hr, by simp [hrt]; omega⟩, by omega⟩
  have hF6 : NR.Pairwise fun a b => a.ts ≠ b.ts :=
    newRows_pairwise hlt hs hu
  have hF7 : upsertAll store NR = store ++ NR := by
    apply upsertAll_append _ hF6
    intro r hr x hx
    have h1 := ts_le_maxTimestamp hx
    have h2 := hF2 r hr
    omega
  have hNRne : NR ≠ [] := by
    rcases hF4 with ⟨r, hr, _⟩
    exact List.ne_nil_of_mem hr
  refine ⟨NR, ?_, hNRne, fun r hr => ⟨hF2 r hr, hF3 r hr⟩, hF4⟩
  have hemp : ¬ (store.isEmpty = true) := by
    simp only [List.isEmpty_iff]
    exact h
  have hne : ¬ (endDate = m) := by omega
  have hov : (if m + 1 > endDate then endDate else m + 1) = m + 1 :=
    if_neg (by omega)
  have hNemp : ¬ (N.isEmpty = true) := by
    simp only [List.isEmpty_iff]
    exact hN
  have hNRemp : ¬ (NR.isEmpty = true) := by
    simp only [List.isEmpty_iff]
    exact hNRne
  simp only [incrementalStep, ← hm, hov, ← hNdef, ← hallData, ← hNR]
  rw [if_neg hemp, if_neg hne, if_neg hNemp, if_neg hNRemp, hF7]

/-! ### Claim theorems -/

/-- Claim C1: no-drift determinism.  For a strictly ascending bar
history H split at any index, re-expanding the persisted prefix rows
into bars, concatenating the remaining bars, sorting by timestamp and
running `calculate_indicators` over the whole series yields exactly the
same indicator rows as running `calculate_indicators` once over H, at
every timestamp. -/
theorem claim1_no_drift_determinism (H : List Bar) (k : ℕ)
    (hsort : List.Chain' (fun a b => a.ts < b.ts) H) :
    calculate_indicators
      (mergeSeries ((calculate_indicators (H.take k)).map rowToBar) (H.drop k))
      = calculate_indicators H := by
  rw [calcInd_map_rowToBar]
  unfold mergeSeries
  rw [List.take_append_drop,
    sortByTs_eq_self _ (hsort.imp fun _ _ hab => le_of_lt hab)]

/-- Witness for C1 at a concrete three-bar history split after one bar. -/
theorem claim1_witness :
    List.Chain' (fun a b => a.ts < b.ts) wHistory
    ∧ calculate_indicators
        (mergeSeries ((calculate_indicators (wHistory.take 1)).map rowToBar)
          (wHistory.drop 1)) = calculate_indicators wHistory :=
  ⟨by norm_num [wHistory, List.chain'_cons],
    claim1_no_drift_determinism wHistory 1
      (by norm_num [wHistory, List.chain'_cons])⟩

/-- Counterexample to C4 as stated: on an empty persisted history,
incremental mode performs no fetch at all (it does not fetch from the
epoch default) and writes nothing, while full mode over the same
upstream data would fetch from the epoch and write one row. -/
theorem claim4_counterexample :
    (incrementalStep [] wUpstreamEarly 5).fetched = none
    ∧ (incrementalStep [] wUpstreamEarly 5).writtenRows = []
    ∧ ¬ ((incrementalStep [] wUpstreamEarly 5).fetched = some (epochDay, 5))
    ∧ (fullStep [] wUpstreamEarly 5).fetched = some (epochDay, 5)
    ∧ (fullStep [] wUpstreamEarly 5).writtenRows.length = 1 := by
  decide

/-- Claim C4 (amended): in incremental mode, a symbol whose loaded
persisted history is empty is skipped entirely — no fetch is performed
and zero rows are written (`main` line 563-565); it does not proceed as
a full fetch. -/
theorem claim4_empty_history_skips (upstream : List Bar) (endDate : ℕ) :
    incrementalStep [] upstream endDate = ⟨[], [], none⟩ :=
  incrementalStep_nil upstream endDate

/-- Counterexample to C5 as stated: with a persisted maximum of day 10
and an end date of day 8, start (11) is strictly later than the end
date, yet a fetch over [8, 8] is still performed and returns a bar —
the claim's "no bars are fetched" is false (zero rows are written,
though). -/
theorem claim5_counterexample :
    (incrementalStep wStoreAhead wUpstreamAhead 8).fetched = some (8, 8)
    ∧ fetchBars wUpstreamAhead 8 8 ≠ []
    ∧ (incrementalStep wStoreAhead wUpstreamAhead 8).writtenRows = []
    ∧ (incrementalStep wStoreAhead wUpstreamAhead 8).store' = wStoreAhead := by
  decide

/-- Claim C5 (amended): when the computed fetch start date
(max persisted timestamp + 1) is strictly later than the end date, the
run writes zero rows and leaves the store unchanged; but it is a fetch
no-op only when the end date equals the max persisted date — otherwise
the start is overridden to the end date and a one-day fetch [end, end]
is still performed (lines 587-589). -/
theorem claim5_start_after_end_zero_writes (store : List Row)
    (upstream : List Bar) (endDate : ℕ) (h : store ≠ [])
    (hgt : endDate < maxTimestamp store + 1) :
    (incrementalStep store upstream endDate).store' = store
    ∧ (incrementalStep store upstream endDate).writtenRows = []
    ∧ (incrementalStep store upstream endDate).fetched
        = (if endDate = maxTimestamp store then none
           else some (endDate, endDate)) := by
  rcases Nat.lt_or_ge endDate (maxTimestamp store) with hlt | hge
  · rw [incrementalStep_behind upstream h hlt, if_neg (by omega)]
    exact ⟨rfl, rfl, rfl⟩
  · have he : endDate = maxTimestamp store := by omega
    rw [incrementalStep_uptodate upstream h he, if_pos he]
    exact ⟨rfl, rfl, rfl⟩

/-- Witness for C5 at the concrete ahead-of-end store. -/
theorem claim5_witness :
    wStoreAhead ≠ [] ∧ (8 : ℕ) < maxTimestamp wStoreAhead + 1
    ∧ ((incrementalStep wStoreAhead wUpstreamAhead 8).store' = wStoreAhead
      ∧ (incrementalStep wStoreAhead wUpstreamAhead 8).writtenRows = []
      ∧ (incrementalStep wStoreAhead wUpstreamAhead 8).fetched
          = (if (8 : ℕ) = maxTimestamp wStoreAhead then none
             else some (8, 8))) :=
  ⟨by decide, by decide,
    claim5_start_after_end_zero_writes wStoreAhead wUpstreamAhead 8
      (by decide) (by decide)⟩

/-- Counterexample to C6 as stated: when the same day appears in both
the historical and the newly fetched data, the code's merge (line 619:
concat + sort, no de-duplication) keeps both rows, whereas the
spec-described merge (de-duplicate, new bar wins) keeps one. -/
theorem claim6_counterexample :
    mergeSeries wHistDup wNewDup ≠ specMergeDedup wHistDup wNewDup
    ∧ (mergeSeries wHistDup wNewDup).length = 2
    ∧ (specMergeDedup wHistDup wNewDup).length = 1 := by
  decide

/-- Claim C6 (amended): the series handed to the Indicator Engine is
the concatenation of the re-expanded historical bars with the newly
fetched bars, sorted ascending by timestamp, with NO de-duplication:
every bar of both inputs is retained, so a day occurring in both
contributes two rows. -/
theorem claim6_merge_no_dedup (hist newData : List Bar) :
    List.Chain' (fun a b => a.ts ≤ b.ts) (mergeSeries hist newData)
    ∧ ∀ d : ℕ,
      ((mergeSeries hist newData).filter fun b => decide (b.ts = d)).length
        = (hist.filter fun b => decide (b.ts = d)).length
          + (newData.filter fun b => decide (b.ts = d)).length := by
  refine ⟨sortByTs_chain _, fun d => ?_⟩
  have hp := List.Perm.filter (fun b => decide (b.ts = d))
    (sortByTs_perm (hist ++ newData))
  unfold mergeSeries
  rw [hp.length_eq, List.filter_append, List.length_append]

/-- A fetch over a range containing no upstream bar returns nothing. -/
lemma fetchBars_eq_nil {upstream : List Bar} {s e : ℕ}
    (h : ∀ b ∈ upstream, s ≤ b.ts → ¬ (b.ts ≤ e)) :
    fetchBars upstream s e = [] := by
  unfold fetchBars
  rw [List.filter_eq_nil_iff]
  intro b hb
  simp only [Bool.and_eq_true, decide_eq_true_eq, not_and]
  exact h b hb

/-- Claim C2: idempotence of incremental mode.  With the same upstream
data and end date (no new upstream bars between the two calls), a second
incremental run writes zero rows and leaves the store exactly as the
first run left it.  Timestamp uniqueness within a symbol (the store's
unique key and the provider's one-bar-per-day contract) is assumed. -/
theorem claim2_incremental_idempotence (store : List Row)
    (upstream : List Bar) (endDate : ℕ)
    (hs : store.Pairwise fun a b => a.ts ≠ b.ts)
    (hu : upstream.Pairwise fun a b => a.ts ≠ b.ts) :
    (incrementalStep (incrementalStep store upstream endDate).store'
        upstream endDate).writtenRows = []
    ∧ (incrementalStep (incrementalStep store upstream endDate).store'
        upstream endDate).store'
      = (incrementalStep store upstream endDate).store' := by
  by_cases h : store = []
  · subst h
    rw [incrementalStep_nil]
    dsimp only
    rw [incrementalStep_nil]
    exact ⟨rfl, rfl⟩
  rcases Nat.lt_trichotomy endDate (maxTimestamp store) with hlt | heq | hgt
  · rw [incrementalStep_behind upstream h hlt]
    dsimp only
    rw [incrementalStep_behind upstream h hlt]
    exact ⟨rfl, rfl⟩
  · rw [incrementalStep_uptodate upstream h heq]
    dsimp only
    rw [incrementalStep_uptodate upstream h heq]
    exact ⟨rfl, rfl⟩
  · by_cases hN : fetchBars upstream (maxTimestamp store + 1) endDate = []
    · rw [incrementalStep_nofetch h hgt hN]
      dsimp only
      rw [incrementalStep_nofetch h hgt hN]
      exact ⟨rfl, rfl⟩
    · rcases incrementalStep_normal h hgt hN hs hu with
        ⟨NR, heq2, hNRne, hbound, hatt⟩
      rcases hatt with ⟨r0, hr0, hr0t⟩
      have hmaxlt : maxTimestamp store
          < maxBarTs (fetchBars upstream (maxTimestamp store + 1) endDate) := by
        have := (hbound r0 hr0).1
        omega
      rw [heq2]
      dsimp only
      have hm2 : maxTimestamp (store ++ NR)
          = maxBarTs (fetchBars upstream (maxTimestamp store + 1) endDate) := by
        rw [maxTimestamp_append]
        have h1 : maxTimestamp NR
            = maxBarTs (fetchBars upstream (maxTimestamp store + 1) endDate) := by
          apply le_antisymm
          · exact foldrMax_le_bound Row.ts fun r hr => (hbound r hr).2
          · rw [← hr0t]
            exact foldrMax_le_of_mem Row.ts hr0
        rw [h1]
        exact max_eq_right (le_of_lt hmaxlt)
      have hstne : store ++ NR ≠ [] := by
        simp [h]
      have hmNle : maxBarTs (fetchBars upstream (maxTimestamp store + 1) endDate)
          ≤ endDate :=
        foldrMax_le_bound Bar.ts fun b hb => (mem_fetchBars.1 hb).2.2
      by_cases hend : endDate = maxTimestamp (store ++ NR)
      · rw [incrementalStep_uptodate upstream hstne hend]
        exact ⟨rfl, rfl⟩
      · have hlt2 : maxTimestamp (store ++ NR) < endDate := by
          rw [hm2] at hend ⊢
          omega
        have hN2 : fetchBars upstream (maxTimestamp (store ++ NR) + 1) endDate
            = [] := by
          rw [hm2]
          apply fetchBars_eq_nil
          intro b hb h1 h2
          have hbN : b ∈ fetchBars upstream (maxTimestamp store + 1) endDate :=
            mem_fetchBars.2 ⟨hb, by omega, h2⟩
          have := ts_le_maxBarTs hbN
          omega
        rw [incrementalStep_nofetch hstne hlt2 hN2]
        exact ⟨rfl, rfl⟩

/-- Witness for C2: a one-row store at day 1, one upstream bar at
day 2, end date 3 — the first run writes the day-2 row, the second run
writes nothing and changes nothing. -/
theorem claim2_witness :
    (wStore.Pairwise fun a b => a.ts ≠ b.ts)
    ∧ (wUpstream.Pairwise fun a b => a.ts ≠ b.ts)
    ∧ ((incrementalStep (incrementalStep wStore wUpstream 3).store'
          wUpstream 3).writtenRows = []
      ∧ (incrementalStep (incrementalStep wStore wUpstream 3).store'
          wUpstream 3).store'
        = (incrementalStep wStore wUpstream 3).store') :=
  ⟨by simp [wStore], by simp [wUpstream],
    claim2_incremental_idempotence wStore wUpstream 3
      (by simp [wStore]) (by simp [wUpstream])⟩

/-- Claim C3: frame property of an incremental run.  With a non-empty
persisted history, every row handed to `insert_data` has timestamp
strictly greater than the previous maximum persisted timestamp, and
restricting the resulting store to timestamps at or below that
high-water mark gives back exactly the old store. -/
theorem claim3_frame_property (store : List Row) (upstream : List Bar)
    (endDate : ℕ) (h : store ≠ [])
    (hs : store.Pairwise fun a b => a.ts ≠ b.ts)
    (hu : upstream.Pairwise fun a b => a.ts ≠ b.ts) :
    (∀ r ∈ (incrementalStep store upstream endDate).writtenRows,
      maxTimestamp store < r.ts)
    ∧ ((incrementalStep store upstream endDate).store'.filter
        fun r => decide (r.ts ≤ maxTimestamp store)) = store := by
  have hself : store.filter (fun r => decide (r.ts ≤ maxTimestamp store))
      = store := by
    rw [List.filter_eq_self]
    intro r hr
    simp [ts_le_maxTimestamp hr]
  rcases Nat.lt_trichotomy endDate (maxTimestamp store) with hlt | heq | hgt
  · rw [incrementalStep_behind upstream h hlt]
    dsimp only
    exact ⟨by simp, hself⟩
  · rw [incrementalStep_uptodate upstream h heq]
    dsimp only
    exact ⟨by simp, hself⟩
  · by_cases hN : fetchBars upstream (maxTimestamp store + 1) endDate = []
    · rw [incrementalStep_nofetch h hgt hN]
      dsimp only
      exact ⟨by simp, hself⟩
    · rcases incrementalStep_normal h hgt hN hs hu with
        ⟨NR, heq2, _, hbound, _⟩
      rw [heq2]
      dsimp only
      refine ⟨fun r hr => (hbound r hr).1, ?_⟩
      rw [List.filter_append]
      have hNRf : NR.filter (fun r => decide (r.ts ≤ maxTimestamp store)) = [] := by
        rw [List.filter_eq_nil_iff]
        intro r hr
        have := (hbound r hr).1
        simp only [decide_eq_true_eq]
        omega
      rw [hNRf, List.append_nil, hself]

/-- Witness for C3 at the same concrete store and upstream as C2. -/
theorem claim3_witness :
    wStore ≠ [] ∧ (wStore.Pairwise fun a b => a.ts ≠ b.ts)
    ∧ (wUpstream.Pairwise fun a b => a.ts ≠ b.ts)
    ∧ ((∀ r ∈ (incrementalStep wStore wUpstream 3).writtenRows,
          maxTimestamp wStore < r.ts)
      ∧ ((incrementalStep wStore wUpstream 3).store'.filter
          fun r => decide (r.ts ≤ maxTimestamp wStore)) = wStore) :=
  ⟨by simp [wStore], by simp [wStore], by simp [wUpstream],
    claim3_frame_property wStore wUpstream 3 (by simp [wStore])
      (by simp [wStore]) (by simp [wUpstream])⟩

/-- A mapped range is a strict chain when the function is strictly
increasing step by step. -/
lemma chain'_lt_rangeMap (n : ℕ) (f : ℕ → ℚ) (hf : ∀ i, f i < f (i + 1)) :
    List.Chain' (· < ·) ((List.range n).map f) := by
  rw [List.chain'_iff_get]
  intro i hi
  simp only [List.get_eq_getElem, List.getElem_map, List.getElem_range]
  exact hf i

lemma asc220_length : asc220.length = 220 := by
  unfold asc220
  rw [List.length_map, List.length_range]

lemma asc220_chain : List.Chain' (· < ·) asc220 := by
  unfold asc220
  apply chain'_lt_rangeMap
  intro i
  push_cast
  linarith

/-- Counterexample to C7 as stated: on the strictly ascending 220-bar
close series 1..220, the RSI at the 14th row (index 13) is still NaN —
RSI(14) needs 14 close-to-close deltas, i.e. 15 bars — so "unavailable
for the first 13 rows and numeric from row 14 onward" is off by one.
(It becomes numeric one row later, at index 14.) -/
theorem claim7_counterexample :
    (calculate_rsi (asc220.map PF.num) 14).getD 13 PF.nan = PF.nan
    ∧ ((calculate_rsi (asc220.map PF.num) 14).getD 13 PF.nan).isNum = false
    ∧ ((calculate_rsi (asc220.map PF.num) 14).getD 14 PF.nan).isNum = true := by
  have h13 : (calculate_rsi (asc220.map PF.num) 14).getD 13 PF.nan = PF.nan :=
    rsi_nan_lt14 _ 13 (by rw [List.length_map, asc220_length]; norm_num)
      (by norm_num)
  refine ⟨h13, by rw [h13]; rfl, ?_⟩
  rw [rsi_num_of_ascending asc220 asc220_chain 14
    (by rw [asc220_length]; norm_num) le_rfl]
  rfl

/-- Claim C7 (amended): for every strictly ascending close series of at
least 220 bars, `ma200` is unavailable for the first 199 rows and
numeric from row 200 onward (index 199 and up), while `rsi` is
unavailable for the first 14 rows and numeric from row 15 onward
(index 14 and up) — one row later than the claim states. -/
theorem claim7_warmup_boundary (closes : List ℚ)
    (hlen : 220 ≤ closes.length) (hasc : List.Chain' (· < ·) closes) :
    ∀ i < closes.length,
      ((((calculate_ma (closes.map PF.num) 200).getD i PF.nan).isNum = true)
        ↔ 199 ≤ i)
      ∧ ((((calculate_rsi (closes.map PF.num) 14).getD i PF.nan).isNum = true)
        ↔ 14 ≤ i) := by
  intro i hi
  constructor
  · rw [ma_isNum_iff closes 200 i hi]
    omega
  · constructor
    · intro hnum
      by_contra hlt
      push_neg at hlt
      rw [rsi_nan_lt14 _ i (by simpa using hi) hlt] at hnum
      simp [PF.isNum] at hnum
    · intro h14
      rw [rsi_num_of_ascending closes hasc i hi h14]
      rfl

/-- Witness for C7 at the concrete ascending series 1..220. -/
theorem claim7_witness :
    220 ≤ asc220.length ∧ List.Chain' (· < ·) asc220
    ∧ ∀ i < asc220.length,
      ((((calculate_ma (asc220.map PF.num) 200).getD i PF.nan).isNum = true)
        ↔ 199 ≤ i)
      ∧ ((((calculate_rsi (asc220.map PF.num) 14).getD i PF.nan).isNum = true)
        ↔ 14 ≤ i) :=
  ⟨by rw [asc220_length], asc220_chain,
    claim7_warmup_boundary asc220 (by rw [asc220_length]) asc220_chain⟩

/-- Counterexample to C8 as stated: the Indicator Engine's own output —
before anything reaches the store-write boundary — already carries 0.0
where the raw computation has the NaN marker: `calculate_indicators`
ends with `df.fillna(0)` (line 398), so the coercion does not happen
"only at the store-write boundary". -/
theorem claim8_counterexample :
    ((calculate_indicators wBars2).getD 0 dummyRow).rsi = PF.num 0
    ∧ (calculate_rsi (wBars2.map fun b => PF.num b.close) 14).getD 0 PF.nan
        = PF.nan := by
  decide

/-- Claim C8 (amended): rows lacking sufficient preceding bars carry the
NaN marker, kept distinct from numeric zero, while the individual
indicator columns are computed; the coercion of the marker to 0.0
happens at the end of `calculate_indicators` itself (`df.fillna(0)`,
line 398) — i.e. at the engine boundary, before the store-write
boundary — so the engine's returned rows already read 0.0 there. -/
theorem claim8_fill_at_engine_boundary (bars : List Bar) (i : ℕ)
    (hi : i < bars.length) (h14 : i < 14) :
    (calculate_rsi (bars.map fun b => PF.num b.close) 14).getD i PF.nan
        = PF.nan
    ∧ ((calculate_indicators bars).getD i dummyRow).rsi = PF.num 0 := by
  have h1 : (calculate_rsi (bars.map fun b => PF.num b.close) 14).getD i PF.nan
      = PF.nan := rsi_nan_lt14 _ i (by simpa using hi) h14
  refine ⟨h1, ?_⟩
  rw [calcInd_getD bars i hi]
  dsimp only
  rw [h1]
  rfl

/-- Witness for C8 at two concrete bars, index 0. -/
theorem claim8_witness :
    0 < wBars2.length ∧ (0 : ℕ) < 14
    ∧ ((calculate_rsi (wBars2.map fun b => PF.num b.close) 14).getD 0 PF.nan
        = PF.nan
      ∧ ((calculate_indicators wBars2).getD 0 dummyRow).rsi = PF.num 0) :=
  ⟨by decide, by decide,
    claim8_fill_at_engine_boundary wBars2 0 (by decide) (by decide)⟩

/-- Claim C9: the screening query selects a row iff all threshold
conditions hold simultaneously (membership in the scoped row set,
close between min and max, rsi at most the limit, ma50 above ma200 by
at most the delta, macd above its signal, close below the Bollinger
middle, adx within its band, timestamp within the lookback window);
the spec's positive example row is selected and the rsi-35 variant is
excluded under the default thresholds. -/
theorem claim9_screener_predicate :
    (∀ (rows : List CandRow) (p : ScreenParams) (now : ℚ) (r : CandRow),
      r ∈ find_trading_candidates rows p now
        ↔ r ∈ rows ∧ (p.minclose ≤ r.close ∧ r.close ≤ p.maxclose
            ∧ r.rsi ≤ p.rsilimit ∧ r.ma50 > r.ma200
            ∧ r.ma50 - r.ma200 ≤ p.ma50ma200delta
            ∧ r.macd > r.macd_signal ∧ r.close < r.bb_middle
            ∧ p.adxminlimit ≤ r.adx ∧ r.adx ≤ p.adxmaxlimit
            ∧ r.ts ≥ now - p.lookbackdays))
    ∧ wPosRow ∈ find_trading_candidates [wPosRow] wParams 100
    ∧ wNegRow ∉ find_trading_candidates [wNegRow] wParams 100 := by
  refine ⟨?_,
    by norm_num [find_trading_candidates, wPosRow, wParams, List.mem_filter],
    by norm_num [find_trading_candidates, wNegRow, wParams, List.mem_filter]⟩
  intro rows p now r
  simp only [find_trading_candidates, List.mem_filter, Bool.and_eq_true,
    decide_eq_true_eq, gt_iff_lt, ge_iff_le]
  tauto

/-- The execute loop that runs to completion stages exactly the upsert
of every row. -/
lemma execLoop_ok (rows : List Row) : ∀ (staged : List Row) (failAt : Option ℕ),
    (execLoop staged rows failAt).2.2 = true →
    (execLoop staged rows failAt).1 = upsertAll staged rows := by
  induction rows with
  | nil =>
      intro staged failAt _
      cases failAt with
      | none => rfl
      | some k => rfl
  | cons r rs ih =>
      intro staged failAt hok
      match failAt with
      | some 0 => exact absurd hok (by simp [execLoop])
      | some (k + 1) =>
          have h1 : execLoop staged (r :: rs) (some (k + 1))
              = ((execLoop (upsertRow staged r) rs (some k)).1,
                 (execLoop (upsertRow staged r) rs (some k)).2.1 + 1,
                 (execLoop (upsertRow staged r) rs (some k)).2.2) := rfl
          rw [h1] at hok ⊢
          exact ih (upsertRow staged r) (some k) hok
      | none =>
          have h1 : execLoop staged (r :: rs) none
              = ((execLoop (upsertRow staged r) rs none).1,
                 (execLoop (upsertRow staged r) rs none).2.1 + 1,
                 (execLoop (upsertRow staged r) rs none).2.2) := rfl
          rw [h1] at hok ⊢
          exact ih (upsertRow staged r) none hok

/-- Claim C10: per-symbol write atomicity.  Whatever point the injected
failure fires at (any `cursor.execute`, or never), the store after
`insert_data` is either exactly the old store (failure: the single
commit never runs and the open transaction is discarded when the
connection closes) or exactly the store with every row upserted
(success: one commit after the loop).  No intermediate staged state is
ever persisted. -/
theorem claim10_insert_atomicity (store rows : List Row)
    (failAt : Option ℕ) :
    (insert_data store rows failAt).1 = store
    ∨ (insert_data store rows failAt).1 = upsertAll store rows := by
  unfold insert_data
  by_cases hemp : rows.isEmpty
  · rw [if_pos hemp]
    left
    rfl
  · rw [if_neg hemp]
    by_cases hok : (execLoop store rows failAt).2.2 = true
    · right
      rw [if_pos hok]
      exact execLoop_ok rows store failAt hok
    · left
      rw [if_neg hok]
